import Mathlib

/-
Verification of `generate_openapi.py`: a static-analysis tool that scans a
source tree for functions decorated as `whitelist` / `frappe.whitelist(...)`
endpoints, extracts signatures and docstrings, and emits a cumulative JSON
store plus an OpenAPI document.

The development is a shallow embedding: Python values are modelled by Lean
inductive types, Python string operations by executable functions over
`List Char`, and the module-level pipeline by explicit folds over a list of
files whose parse outcome (decodable-and-parseable, or not) is part of the
file model.
-/

namespace FrappeAst

/-! ## Python string primitives (over `List Char`)

Python `str` operations used by the script, modelled character-wise.
`str.split(sep)` splits on leftmost non-overlapping occurrences of a
non-empty separator; `str.strip()` removes whitespace at both ends;
`str.lower()` lower-cases character-wise; `sub in s` is substring search.
-/

/-- Whitespace characters removed by Python `str.strip()` (ASCII range). -/
def pyIsSpace (c : Char) : Bool :=
  c == ' ' || c == '\t' || c == '\n' || c == '\r' || c == '\x0b' || c == '\x0c'

/-- Python `s.strip()`: drop whitespace from both ends. -/
def pyStripL (l : List Char) : List Char :=
  ((l.dropWhile pyIsSpace).reverse.dropWhile pyIsSpace).reverse

/-- Python `s.lower()` (character-wise; ASCII letters, which is all the
script ever lower-cases in the inputs modelled here). -/
def pyLowerL (l : List Char) : List Char := l.map Char.toLower

/-- Python `sub in s`: some suffix of `s` starts with `sub`. -/
def pyContainsL (doc m : List Char) : Bool :=
  (List.range (doc.length + 1)).any (fun i => m.isPrefixOf (doc.drop i))

/-- Worker for Python `s.split(sep)`: scans left to right, consuming each
leftmost non-overlapping occurrence of `m`.  The `fuel` argument (always
instantiated with the length of the scanned list) makes the recursion
structural, so the function evaluates by kernel reduction. -/
def pySplitGo (m : List Char) : Nat → List Char → List (List Char)
  | _, [] => [[]]
  | 0, l => [l]
  | fuel + 1, c :: rest =>
    if m.isPrefixOf (c :: rest) && !m.isEmpty then
      [] :: pySplitGo m fuel ((c :: rest).drop m.length)
    else
      match pySplitGo m fuel rest with
      | [] => [[c]]
      | seg :: segs => (c :: seg) :: segs

/-- Python `s.split(sep)` for a non-empty separator. -/
def pySplitL (doc m : List Char) : List (List Char) := pySplitGo m doc.length doc

/-- Python `parts[0]` on a split result (split results are never empty). -/
def pyHeadD : List (List Char) → List Char
  | [] => []
  | x :: _ => x

/-- Python `parts[-1]` on a split result (split results are never empty). -/
def pyLastD : List (List Char) → List Char
  | [] => []
  | [x] => x
  | _ :: rest => pyLastD rest

/-- Python `s.lower()` on `String`. -/
def pyLowerS (s : String) : String := String.mk (pyLowerL s.data)

/-- Python `s.endswith(suffix)`. -/
def pyEndsWith (s suffix : String) : Bool := suffix.data.isSuffixOf s.data

/-- Python `sep.join(parts)`. -/
def joinWith (sep : List Char) : List (List Char) → List Char
  | [] => []
  | [x] => x
  | x :: xs => x ++ sep ++ joinWith sep xs

/-! ## The embedded Python AST

Only the node shapes the script inspects are distinguished; every other
expression shape is collapsed into `Expr.other`, which the script treats
uniformly (all its `isinstance` tests fail on it).  A `Call`'s keyword list
holds `(arg, value)` pairs, with `arg = none` for `**kwargs` entries.
-/

inductive Const where
  | boolConst (b : Bool)
  | intConst (n : Int)
  | strConst (s : String)
  | noneConst
  | otherConst
deriving DecidableEq

inductive Expr where
  | name (id : String)
  | attribute (value : Expr) (attr : String)
  | call (func : Expr) (args : List Expr) (keywords : List (Option String × Expr))
  | constant (value : Const)
  | subscript (value : Expr) (slice : Expr)
  | other

/-- One entry of `node.args.args`: a positional parameter with its
optional annotation expression. -/
structure Arg where
  arg : String
  annotation : Option Expr

/-- An `ast.FunctionDef` node, restricted to the fields the visitor reads:
`name`, `lineno`, `decorator_list`, the positional `args.args` list, and
the docstring (`ast.get_docstring(node)`, `none` when the body does not
start with a string literal). -/
structure FunctionDef where
  name : String
  lineno : Nat
  decorator_list : List Expr
  args : List Arg
  docstring : Option String

/-- One `{'name': ..., 'type': ...}` parameter dict. -/
structure Param where
  name : String
  type : String
deriving DecidableEq

/-- The `response_schema` dict: `{"type": "object", "description": ...}`. -/
structure ResponseSchema where
  type : String
  description : String
deriving DecidableEq

/-- One entry of `visitor.whitelists` (an EndpointRecord). -/
structure Endpoint where
  name : String
  file : String
  line : Nat
  allow_guest : Bool
  docstring : String
  parameters : List Param
  response : ResponseSchema
deriving DecidableEq

/-! ## The visitor (`WhitelistVisitor.visit_FunctionDef`, lines 9-50) -/

/-- The decorator test of lines 11-19: a `Call` whose callee is the
attribute `whitelist` on the name `frappe`, or the bare name `whitelist`. -/
def isWhitelistDecorator : Expr → Bool
  | Expr.call (Expr.attribute (Expr.name v) attr) _ _ => attr == "whitelist" && v == "frappe"
  | Expr.name i => i == "whitelist"
  | _ => false

/-- `isinstance(kw.value, ast.Constant) and kw.value.value is True`. -/
def isTrueConst : Expr → Bool
  | Expr.constant (Const.boolConst true) => true
  | _ => false

/-- Lines 20-24: `allow_guest` is set when the decorator is a `Call` with a
keyword `allow_guest` whose value is the literal constant `True`.  (The
code's extra `dec.keywords` truthiness test is subsumed: `any` over an
empty keyword list is already `false`.) -/
def allowGuestOf : Expr → Bool
  | Expr.call _ _ kws => kws.any (fun kw => kw.1 == some "allow_guest" && isTrueConst kw.2)
  | _ => false

/-- Lines 29-34: default `'string'`; a `Name` annotation gives its id
lower-cased; a `Subscript` gives `'array'` when the subscripted value is
the name `list`, otherwise `'string'`; any other annotation shape keeps
the default. -/
def paramTypeOf : Option Expr → String
  | none => "string"
  | some (Expr.name i) => pyLowerS i
  | some (Expr.subscript (Expr.name i) _) => if i == "list" then "array" else "string"
  | some (Expr.subscript _ _) => "string"
  | some _ => "string"

/-- Lines 26-35: every positional parameter not named `self`, in order,
with its inferred type. -/
def extractParams (args : List Arg) : List Param :=
  args.filterMap (fun a =>
    if a.arg != "self" then some { name := a.arg, type := paramTypeOf a.annotation }
    else none)

/-- Lines 36-41: the 200-response description.  Default `"JSON response"`;
when the lower-cased docstring contains `':return:'`, the description is
`docstring.split(':return:')[-1].strip().split('\n')[0]` computed on the
original (non-lowered) docstring. -/
def responseDescriptionL (doc : List Char) : List Char :=
  if pyContainsL (pyLowerL doc) (":return:").data then
    pyHeadD (pySplitL (pyStripL (pyLastD (pySplitL doc (":return:").data))) ['\n'])
  else
    ("JSON response").data

/-- `String` wrapper for `responseDescriptionL`. -/
def responseDescription (doc : String) : String :=
  String.mk (responseDescriptionL doc.data)

/-- The record appended at lines 42-50 for one matching decorator `dec` of
function `f`.  `file` is the empty string here; `parse_file` fills it in
afterwards.  `docstring` models `ast.get_docstring(node) or ''`. -/
def mkEndpoint (f : FunctionDef) (dec : Expr) : Endpoint :=
  { name := f.name
  , file := ""
  , line := f.lineno
  , allow_guest := allowGuestOf dec
  , docstring := f.docstring.getD ""
  , parameters := extractParams f.args
  , response := { type := "object", description := responseDescription (f.docstring.getD "") } }

/-- The decorator loop of `visit_FunctionDef` (lines 10-50): one record
appended per decorator that passes `isWhitelistDecorator`. -/
def processFunctionDef (f : FunctionDef) : List Endpoint :=
  f.decorator_list.filterMap (fun dec =>
    if isWhitelistDecorator dec then some (mkEndpoint f dec) else none)

/-- A parsed module, as far as the visitor is concerned: the function
definition nodes the traversal reaches (top-level and nested, in visit
order).  Each contributes its `processFunctionDef` records. -/
structure Module where
  functions : List FunctionDef

/-- `visitor.visit(tree)` followed by reading `visitor.whitelists`. -/
def visitModule (m : Module) : List Endpoint :=
  (m.functions.map processFunctionDef).flatten

/-! ## `parse_file` (lines 55-71) -/

/-- What `open(...).read()` + `ast.parse` does with a file's bytes: either
it raises `UnicodeDecodeError`/`SyntaxError` (`invalid`), or it yields a
syntax tree (`parsed`). -/
inductive FileContent where
  | invalid
  | parsed (tree : Module)

/-- A file met by the walk: `dirpath` from `os.walk`, the basename
`fname`, and its parse outcome. -/
structure SrcFile where
  dirpath : String
  fname : String
  content : FileContent

/-- `os.path.join(dirpath, fname)` for the non-empty, slash-free dirpaths
`os.walk` produces. -/
def filePathOf (f : SrcFile) : String := f.dirpath ++ "/" ++ f.fname

/-- The `ast_data` dict built at lines 63-67. -/
structure AstData where
  file : String
  whitelisted_methods : List Endpoint
  ast_dump : String
deriving DecidableEq

/-- `ast.dump(tree, indent=2)`.  The exact rendered text is irrelevant to
every property proved here (it is stored verbatim and never inspected), so
the dump is modelled by a simple serialization of the embedded tree. -/
def astDump (m : Module) : String :=
  "Module(functions=[" ++
    String.intercalate ", " (m.functions.map (fun f => "FunctionDef(name=" ++ f.name ++ ")")) ++
  "])"

/-- `parse_file` (lines 55-71): on success, the `ast_data` dict (with each
record's `file` field set to the file path) and no console output; on a
decode/parse failure, no data and the skip message. -/
def parse_file (f : SrcFile) : Option AstData × List String :=
  match f.content with
  | FileContent.invalid =>
      (none, ["Skipping " ++ filePathOf f ++ ": Unable to parse"])
  | FileContent.parsed tree =>
      (some { file := filePathOf f
            , whitelisted_methods :=
                (visitModule tree).map (fun wl => { wl with file := filePathOf f })
            , ast_dump := astDump tree }
      , [])

/-! ## `get_module_path` (lines 74-89) -/

/-- Path components after normalization: split on `/`, dropping empty
components and `.` components. -/
def normSegments (p : String) : List (List Char) :=
  (pySplitL p.data ['/']).filterMap (fun seg =>
    if seg.isEmpty || seg == ['.'] then none else some seg)

/-- Length of the common prefix of two segment lists. -/
def commonPrefixLen : List (List Char) → List (List Char) → Nat
  | a :: as, b :: bs => if a == b then commonPrefixLen as bs + 1 else 0
  | _, _ => 0

/-- `os.path.relpath(path, start)` for POSIX relative paths without `..`
components — the only inputs the pipeline produces (paths assembled by
`os.walk` under the root). -/
def relpath (path start : String) : String :=
  let p := normSegments path
  let s := normSegments start
  let i := commonPrefixLen p s
  let parts := List.replicate (s.length - i) ("..").data ++ p.drop i
  if parts.isEmpty then "." else String.mk (joinWith ['/'] parts)

/-- `get_module_path` (lines 74-89): relative path from the root, `.py`
extension stripped, `/` turned into `.`, first segment dropped when more
than one segment exists, with a `'default_module'` fallback for an empty
result. -/
def get_module_path (root file_path : String) : String :=
  let rel0 := (relpath file_path root).data
  let rel1 := if (".py").data.isSuffixOf rel0 then rel0.take (rel0.length - 3) else rel0
  let moduleChars := joinWith ['.'] (pySplitL rel1 ['/'])
  let path_parts := pySplitL moduleChars ['.']
  let module1 : List Char :=
    if path_parts.length > 1 then joinWith ['.'] (path_parts.drop 1)
    else
      match path_parts with
      | [] => []
      | q :: _ => q
  if module1.isEmpty then "default_module" else String.mk module1

/-! ## `build_openapi` (lines 91-136) -/

/-- One entry of an operation's `parameters` list:
`{"name": ..., "in": "query", "schema": {"type": ...}}`. -/
structure QueryParam where
  name : String
  paramIn : String
  schemaType : String
deriving DecidableEq

/-- The `post` operation dict built at lines 110-134.  The fixed response
content block `{"application/json": {"schema": {"type": "object"}}}` is
constant and therefore not carried as a field.  `security` is `some` of
the scheme-name list when the operation carries a security requirement. -/
structure PostOperation where
  summary : String
  parameters : List QueryParam
  responseDescription : String
  xAllowGuest : Bool
  security : Option (List String)
deriving DecidableEq

/-- Lines 110-134 for one record `wl`. -/
def opOf (wl : Endpoint) : PostOperation :=
  { summary := if wl.docstring != "" then String.mk (pyHeadD (pySplitL wl.docstring.data ['\n'])) else ""
  , parameters := wl.parameters.map (fun p =>
      { name := p.name, paramIn := "query", schemaType := p.type })
  , responseDescription := wl.response.description
  , xAllowGuest := wl.allow_guest
  , security := if !wl.allow_guest then some ["basicAuth"] else none }

/-- The OpenAPI path string of line 109. -/
def pathOf (root file name : String) : String :=
  "/api/method/" ++ get_module_path root file ++ "." ++ name

/-- Python dict assignment `d[k] = v` on an insertion-ordered mapping
represented as an association list with unique keys: an existing key keeps
its position and gets the new value; a new key is appended. -/
def insertAssoc {α : Type} (m : List (String × α)) (k : String) (v : α) : List (String × α) :=
  if m.any (fun p => p.1 == k) then
    m.map (fun p => if p.1 == k then (k, v) else p)
  else
    m ++ [(k, v)]

/-- Lookup in the association-list mapping (first binding wins, which
coincides with the unique binding on unique-key lists). -/
def lookupAssoc {α : Type} : List (String × α) → String → Option α
  | [], _ => none
  | p :: rest, k => if p.1 == k then some p.2 else lookupAssoc rest k

/-- The nested loops of lines 106-135: every record of every file, in
order, assigned into `spec["paths"]`. -/
def buildOpenapiPaths (root : String) (functions : List AstData) : List (String × PostOperation) :=
  functions.foldl (fun paths ad =>
    ad.whitelisted_methods.foldl (fun paths2 wl =>
      insertAssoc paths2 (pathOf root ad.file wl.name) (opOf wl)) paths) []

/-- The `(path, operation)` pairs in processing order, before the mapping
collapses duplicate keys. -/
def endpointPairs (root : String) (functions : List AstData) : List (String × PostOperation) :=
  (functions.map (fun ad =>
    ad.whitelisted_methods.map (fun wl => (pathOf root ad.file wl.name, opOf wl)))).flatten

/-- The OpenAPI document skeleton of lines 92-105 with the filled `paths`
mapping.  `securitySchemes` holds `(name, type, scheme)` triples and
`security` the global requirement list. -/
structure OpenApiSpec where
  openapi : String
  infoTitle : String
  infoVersion : String
  paths : List (String × PostOperation)
  securitySchemes : List (String × String × String)
  security : List (List String)
deriving DecidableEq

/-- `build_openapi` (lines 91-136). -/
def build_openapi (root : String) (functions : List AstData) : OpenApiSpec :=
  { openapi := "3.0.0"
  , infoTitle := "Frappe API"
  , infoVersion := "1.0.0"
  , paths := buildOpenapiPaths root functions
  , securitySchemes := [("basicAuth", "http", "basic")]
  , security := [["basicAuth"]] }

/-! ## The module-level pipeline (lines 138-163) -/

/-- `root_dir = './apps'` (line 138). -/
def root_dir : String := "./apps"

/-- `excluded` (line 139). -/
def excluded : List String := ["hooks.py", "setup.py", "__init__.py", "patches.py"]

/-- What reading the prior JSON store can yield: the file is missing
(`FileNotFoundError`), its text is not valid JSON (`JSONDecodeError`), it
is valid JSON whose top-level value is not an array, or it is a JSON array
of records. -/
inductive StoreContent where
  | missing
  | malformed
  | nonList
  | list (records : List AstData)

/-- Lines 144-150: a missing or malformed store, and a well-formed store
whose top-level value is not a list, all start the run from `[]`; a
well-formed array is kept. -/
def loadStore : StoreContent → List AstData
  | StoreContent.list rs => rs
  | StoreContent.missing => []
  | StoreContent.malformed => []
  | StoreContent.nonList => []

/-- The walk's filter at line 155: `.py` files not in the exclusion list. -/
def candidate (f : SrcFile) : Bool :=
  pyEndsWith f.fname ".py" && !(excluded.contains f.fname)

/-- One iteration of the collection loop (lines 153-159) on the `data`
accumulator. -/
def scanStep (data : List AstData) (f : SrcFile) : List AstData :=
  if candidate f then
    match (parse_file f).1 with
    | some ad => data ++ [ad]
    | none => data
  else data

/-- The `data` list written back to the store at lines 161-163: prior
records (per `loadStore`) extended by the records of this run's walk. -/
def pipelineData (prior : StoreContent) (files : List SrcFile) : List AstData :=
  files.foldl scanStep (loadStore prior)

/-- One iteration of the collection loop, console side. -/
def consoleStep (out : List String) (f : SrcFile) : List String :=
  if candidate f then out ++ (parse_file f).2 else out

/-- The console lines printed during the walk (the `Skipping ...`
messages; the per-endpoint summary block of lines 171-177 is printed
afterwards from `data`). -/
def pipelineConsole (files : List SrcFile) : List String :=
  files.foldl consoleStep []

/-! ## Specification-side definitions

These follow the wording of the specification (not the code); they are
compared against the code-derived definitions in the theorems below.
-/

/-- Spec wording for the 200-response description: the text following the
`':return:'` marker on the same line, up to the next line break. -/
def sameLineAfterMarker (doc : String) : String :=
  String.mk (((pySplitL doc.data (":return:").data).getD 1 []).takeWhile (fun c => c != '\n'))

/-- The records contributed by one run's walk alone: one per candidate
file that parses. -/
def newRecords (files : List SrcFile) : List AstData :=
  files.filterMap (fun f => if candidate f then (parse_file f).1 else none)

/-- The value attached to the last binding of a key in a pair list
(last-write-wins reading of the processing order). -/
def lastVal? {α : Type} : List (String × α) → String → Option α
  | [], _ => none
  | p :: rest, k =>
    match lastVal? rest k with
    | some v => some v
    | none => if p.1 == k then some p.2 else none

/-! ## Concrete fixtures used in counterexamples and witnesses -/

/-- The namespaced-call decorator `@frappe.whitelist()`. -/
def frappeDec : Expr := Expr.call (Expr.attribute (Expr.name "frappe") "whitelist") [] []

/-- `@frappe.whitelist(allow_guest=True)`. -/
def guestDec : Expr :=
  Expr.call (Expr.attribute (Expr.name "frappe") "whitelist") []
    [(some "allow_guest", Expr.constant (Const.boolConst true))]

/-- A function carrying two recognized decorators at once. -/
def doubleDecFn : FunctionDef :=
  { name := "ping", lineno := 1
  , decorator_list := [Expr.name "whitelist", frappeDec]
  , args := [], docstring := none }

/-- A function whose docstring has nothing after `':return:'` on the
marker's own line. -/
def blankReturnFn : FunctionDef :=
  { name := "fetch", lineno := 1
  , decorator_list := [Expr.name "whitelist"]
  , args := [], docstring := some ":return:\nFoo" }

/-- The `get_status` example of the specification. -/
def statusFn : FunctionDef :=
  { name := "get_status", lineno := 1
  , decorator_list := [frappeDec]
  , args := [], docstring := none }

/-- `apps/myapp/api/status.py` containing `get_status`. -/
def statusFile : SrcFile :=
  { dirpath := "apps/myapp/api", fname := "status.py"
  , content := FileContent.parsed { functions := [statusFn] } }

/-- A guest endpoint with annotated parameters, for witnesses. -/
def guestFn : FunctionDef :=
  { name := "login", lineno := 5
  , decorator_list := [guestDec]
  , args := [ { arg := "a", annotation := none }
            , { arg := "self", annotation := none }
            , { arg := "n", annotation := some (Expr.name "Integer") }
            , { arg := "xs", annotation := some (Expr.subscript (Expr.name "list") (Expr.name "str")) }
            , { arg := "ys", annotation := some (Expr.subscript (Expr.attribute (Expr.name "typing") "List") Expr.other) } ]
  , docstring := none }

/-- A record in `./apps/app1/api.py` whose path collides with `collideB`. -/
def collideA : Endpoint :=
  { name := "f", file := "./apps/app1/api.py", line := 1, allow_guest := false
  , docstring := "one", parameters := []
  , response := { type := "object", description := "JSON response" } }

/-- A record in `./apps/app2/api.py` whose path collides with `collideA`. -/
def collideB : Endpoint :=
  { name := "f", file := "./apps/app2/api.py", line := 1, allow_guest := false
  , docstring := "two", parameters := []
  , response := { type := "object", description := "JSON response" } }

/-- Parsed-file record for `collideA`. -/
def collideAd1 : AstData :=
  { file := "./apps/app1/api.py", whitelisted_methods := [collideA], ast_dump := "d1" }

/-- Parsed-file record for `collideB`. -/
def collideAd2 : AstData :=
  { file := "./apps/app2/api.py", whitelisted_methods := [collideB], ast_dump := "d2" }

/-- A file that fails to decode or parse. -/
def brokenFile : SrcFile :=
  { dirpath := "./apps/app1", fname := "broken.py", content := FileContent.invalid }

/-! ## Lemmas about the string primitives -/

theorem pyContainsL_iff (doc m : List Char) :
    pyContainsL doc m = true ↔ ∃ i, i ≤ doc.length ∧ m.isPrefixOf (doc.drop i) = true := by
  simp [pyContainsL, List.any_eq_true, List.mem_range, Nat.lt_succ_iff]

theorem isPrefixOf_append_self (m b : List Char) : m.isPrefixOf (m ++ b) = true := by
  induction m with
  | nil => simp [List.isPrefixOf]
  | cons c rest ih => simp [List.isPrefixOf, ih]

theorem pyContainsL_decomp (a m b : List Char) : pyContainsL (a ++ m ++ b) m = true := by
  rw [pyContainsL_iff]
  refine ⟨a.length, ?_, ?_⟩
  · simp
  · rw [List.append_assoc, List.drop_left]
    exact isPrefixOf_append_self m b

theorem pyContainsL_cons (c : Char) (l m : List Char) :
    pyContainsL (c :: l) m = true ↔
      m.isPrefixOf (c :: l) = true ∨ pyContainsL l m = true := by
  rw [pyContainsL_iff, pyContainsL_iff]
  constructor
  · rintro ⟨i, hi, hp⟩
    match i with
    | 0 => exact Or.inl (by simpa using hp)
    | j + 1 =>
      exact Or.inr ⟨j, by simpa [Nat.succ_le_succ_iff] using hi, by simpa using hp⟩
  · rintro (h | ⟨i, hi, hp⟩)
    · exact ⟨0, Nat.zero_le _, by simpa using h⟩
    · exact ⟨i + 1, Nat.succ_le_succ hi, by simpa using hp⟩

theorem pySplitGo_ne_nil (m : List Char) (fuel : Nat) (doc : List Char) :
    pySplitGo m fuel doc ≠ [] := by
  cases fuel with
  | zero => cases doc <;> simp [pySplitGo]
  | succ n =>
    cases doc with
    | nil => simp [pySplitGo]
    | cons c rest =>
      simp only [pySplitGo]
      split
      · simp
      · split <;> simp

theorem pySplitGo_fuel (m : List Char) (f : Nat) :
    ∀ (doc : List Char), doc.length ≤ f → pySplitGo m f doc = pySplitGo m doc.length doc := by
  induction f using Nat.strong_induction_on with
  | _ f ih =>
    intro doc h
    cases doc with
    | nil => cases f <;> rfl
    | cons c rest =>
      cases f with
      | zero => simp at h
      | succ n =>
        have hrn : rest.length ≤ n := by
          simpa [Nat.succ_le_succ_iff] using h
        show pySplitGo m (n + 1) (c :: rest) = pySplitGo m (rest.length + 1) (c :: rest)
        simp only [pySplitGo]
        by_cases hm : (m.isPrefixOf (c :: rest) && !m.isEmpty) = true
        · rw [if_pos hm, if_pos hm]
          have hmne : m ≠ [] := by
            intro he; subst he; simp at hm
          have hm1 : 1 ≤ m.length := Nat.one_le_iff_ne_zero.mpr (by
            simpa [List.length_eq_zero] using hmne)
          have hd : ((c :: rest).drop m.length).length ≤ rest.length := by
            simp only [List.length_drop, List.length_cons]
            omega
          rw [ih n (Nat.lt_succ_self n) _ (le_trans hd hrn),
            ih rest.length (Nat.lt_succ_of_le hrn) _ hd]
        · rw [if_neg hm, if_neg hm]
          rw [ih n (Nat.lt_succ_self n) rest hrn]

theorem pySplit_append (m : List Char) (hm : m ≠ []) :
    ∀ (pre suf : List Char),
      (∀ i, i < pre.length → m.isPrefixOf ((pre ++ m ++ suf).drop i) = false) →
      pySplitL (pre ++ m ++ suf) m = pre :: pySplitL suf m := by
  intro pre
  induction pre with
  | nil =>
    intro suf _
    obtain ⟨c, m', rfl⟩ := List.exists_cons_of_ne_nil hm
    show pySplitGo (c :: m') ((c :: m') ++ suf).length ((c :: m') ++ suf) = _
    have hcons : (c :: m') ++ suf = c :: (m' ++ suf) := rfl
    rw [hcons]
    show pySplitGo (c :: m') ((m' ++ suf).length + 1) (c :: (m' ++ suf)) = _
    simp only [pySplitGo]
    rw [if_pos]
    · have hdrop : (c :: (m' ++ suf)).drop (c :: m').length = suf := by
        rw [← hcons, List.drop_left]
      rw [hdrop]
      congr 1
      exact pySplitGo_fuel _ _ _ (by simp)
    · simp only [Bool.and_eq_true]
      exact ⟨isPrefixOf_append_self (c :: m') suf, by simp⟩
  | cons c pre' ih =>
    intro suf hocc
    have hcons : (c :: pre') ++ m ++ suf = c :: (pre' ++ m ++ suf) := rfl
    rw [hcons]
    show pySplitGo m ((pre' ++ m ++ suf).length + 1) (c :: (pre' ++ m ++ suf)) = _
    simp only [pySplitGo]
    rw [if_neg]
    · have hrec : pySplitGo m (pre' ++ m ++ suf).length (pre' ++ m ++ suf)
          = pre' :: pySplitL suf m := by
        refine ih suf ?_
        intro i hi
        have := hocc (i + 1) (Nat.succ_lt_succ hi)
        simpa [hcons] using this
      rw [hrec]
    · have h0 := hocc 0 (by simp)
      simp only [List.drop_zero] at h0
      rw [hcons] at h0
      intro hx
      rw [Bool.and_eq_true] at hx
      rw [h0] at hx
      exact Bool.false_ne_true hx.1

theorem pySplit_no_occurrence (m : List Char) :
    ∀ (s : List Char), pyContainsL s m = false → pySplitL s m = [s] := by
  intro s
  induction s with
  | nil => intro _; rfl
  | cons c rest ih =>
    intro h
    have hnot : ¬(m.isPrefixOf (c :: rest) = true ∨ pyContainsL rest m = true) := by
      intro hor
      rw [(pyContainsL_cons c rest m).mpr hor] at h
      exact absurd h (by decide)
    have hpre : m.isPrefixOf (c :: rest) = false :=
      Bool.eq_false_iff.mpr (fun hx => hnot (Or.inl hx))
    have hrest : pyContainsL rest m = false :=
      Bool.eq_false_iff.mpr (fun hx => hnot (Or.inr hx))
    show pySplitGo m (rest.length + 1) (c :: rest) = [c :: rest]
    simp only [pySplitGo]
    rw [if_neg (by simp [hpre])]
    rw [show pySplitGo m rest.length rest = [rest] from ih hrest]

theorem pySplit_head_single (d : Char) :
    ∀ (s : List Char), pyHeadD (pySplitL s [d]) = s.takeWhile (fun c => c != d) := by
  intro s
  induction s with
  | nil => rfl
  | cons c rest ih =>
    show pyHeadD (pySplitGo [d] (rest.length + 1) (c :: rest)) = _
    simp only [pySplitGo]
    by_cases hdc : d = c
    · rw [if_pos]
      · subst hdc
        simp [pyHeadD, List.takeWhile]
      · subst hdc
        simp [List.isPrefixOf]
    · rw [if_neg]
      · obtain ⟨seg, segs, hsp⟩ : ∃ seg segs, pySplitGo [d] rest.length rest = seg :: segs := by
          cases hx : pySplitGo [d] rest.length rest with
          | nil => exact absurd hx (pySplitGo_ne_nil [d] rest.length rest)
          | cons a b => exact ⟨a, b, rfl⟩
        rw [hsp]
        have hrest : pyHeadD (seg :: segs) = seg := rfl
        have ihx : seg = rest.takeWhile (fun x => x != d) := by
          have := ih
          rw [show pySplitL rest [d] = pySplitGo [d] rest.length rest from rfl, hsp] at this
          simpa [pyHeadD] using this
        have hcd : (c != d) = true := by
          simp [bne_iff_ne]
          exact fun hx => hdc hx.symm
        simp [pyHeadD, List.takeWhile, hcd, ihx]
      · intro hx
        rw [Bool.and_eq_true] at hx
        have hx1 := hx.1
        simp [List.isPrefixOf] at hx1
        exact hdc hx1

/-! ## Lemmas about the visitor -/

theorem processFunctionDef_eq (f : FunctionDef) :
    processFunctionDef f = (f.decorator_list.filter isWhitelistDecorator).map (mkEndpoint f) := by
  unfold processFunctionDef
  induction f.decorator_list with
  | nil => rfl
  | cons d ds ih =>
    by_cases h : isWhitelistDecorator d = true
    · simp [List.filterMap_cons, List.filter_cons, h, ih]
    · simp only [Bool.not_eq_true] at h
      simp [List.filterMap_cons, List.filter_cons, h, ih]

theorem isTrueConst_eq_true (e : Expr) :
    isTrueConst e = true ↔ e = Expr.constant (Const.boolConst true) := by
  cases e <;> try simp [isTrueConst]
  next c =>
    cases c <;> try simp [isTrueConst]
    next b => cases b <;> simp [isTrueConst]

theorem extractParams_cons (a : Arg) (as : List Arg) :
    extractParams (a :: as) =
      if a.arg != "self"
      then (⟨a.arg, paramTypeOf a.annotation⟩ : Param) :: extractParams as
      else extractParams as := by
  unfold extractParams
  by_cases h : (a.arg != "self") = true
  · rw [if_pos h, List.filterMap_cons, if_pos h]
  · rw [if_neg h, List.filterMap_cons, if_neg h]

theorem extractParams_names (args : List Arg) :
    (extractParams args).map Param.name = (args.map Arg.arg).filter (fun s => s != "self") := by
  induction args with
  | nil => rfl
  | cons a as ih =>
    rw [extractParams_cons, List.map_cons]
    simp only [List.filter_cons]
    by_cases h : (a.arg != "self") = true
    · rw [if_pos h, if_pos h, List.map_cons, ih]
    · rw [if_neg h, if_neg h, ih]

/-! ## Lemmas about the association-list mapping -/

theorem lookup_map_replace {α : Type} (k k' : String) (v : α) (h : k' ≠ k) :
    ∀ (m : List (String × α)),
      lookupAssoc (m.map (fun p => if p.1 == k then (k, v) else p)) k' = lookupAssoc m k' := by
  intro m
  induction m with
  | nil => rfl
  | cons p rest ih =>
    by_cases hp : (p.1 == k) = true
    · have hpk : p.1 = k := by simpa using hp
      simp only [List.map_cons, if_pos hp, lookupAssoc]
      rw [if_neg (by simpa using (Ne.symm h)), if_neg (by simp [hpk]; exact Ne.symm h)]
      exact ih
    · simp only [List.map_cons, if_neg hp, lookupAssoc]
      by_cases hq : (p.1 == k') = true
      · rw [if_pos hq, if_pos hq]
      · rw [if_neg hq, if_neg hq]
        exact ih

theorem lookup_append_single {α : Type} (k k' : String) (v : α) (h : k' ≠ k) :
    ∀ (m : List (String × α)), lookupAssoc (m ++ [(k, v)]) k' = lookupAssoc m k' := by
  intro m
  induction m with
  | nil =>
    simp only [List.nil_append, lookupAssoc]
    rw [if_neg (by simpa using (Ne.symm h))]
  | cons p rest ih =>
    simp only [List.cons_append, lookupAssoc]
    by_cases hq : (p.1 == k') = true
    · rw [if_pos hq, if_pos hq]
    · rw [if_neg hq, if_neg hq]
      exact ih

theorem lookup_insertAssoc_self {α : Type} (k : String) (v : α) :
    ∀ (m : List (String × α)), lookupAssoc (insertAssoc m k v) k = some v := by
  intro m
  unfold insertAssoc
  by_cases hany : (m.any (fun p => p.1 == k)) = true
  · rw [if_pos hany]
    induction m with
    | nil => simp at hany
    | cons p rest ih =>
      by_cases hp : (p.1 == k) = true
      · simp only [List.map_cons, if_pos hp, lookupAssoc]
        rw [if_pos (by simp)]
      · simp only [List.map_cons, if_neg hp, lookupAssoc]
        refine ih ?_
        rcases List.any_eq_true.mp hany with ⟨q, hq, hqk⟩
        rcases List.mem_cons.mp hq with rfl | hq2
        · exact absurd hqk hp
        · exact List.any_eq_true.mpr ⟨q, hq2, hqk⟩
  · rw [if_neg hany]
    induction m with
    | nil =>
      simp only [List.nil_append, lookupAssoc]
      rw [if_pos (by simp)]
    | cons p rest ih =>
      have hp : (p.1 == k) = false := by
        by_cases hx : (p.1 == k) = true
        · exact absurd (List.any_eq_true.mpr ⟨p, List.mem_cons_self p rest, hx⟩) hany
        · exact Bool.eq_false_iff.mpr hx
      simp only [List.cons_append, lookupAssoc]
      rw [if_neg (by simp [hp])]
      refine ih ?_
      intro hx
      exact hany (List.any_eq_true.mpr (by
        rcases List.any_eq_true.mp hx with ⟨q, hq, hqk⟩
        exact ⟨q, List.mem_cons_of_mem p hq, hqk⟩))

theorem lookup_insertAssoc_other {α : Type} (k k' : String) (v : α) (h : k' ≠ k)
    (m : List (String × α)) : lookupAssoc (insertAssoc m k v) k' = lookupAssoc m k' := by
  unfold insertAssoc
  by_cases hany : (m.any (fun p => p.1 == k)) = true
  · rw [if_pos hany]
    exact lookup_map_replace k k' v h m
  · rw [if_neg hany]
    exact lookup_append_single k k' v h m

/-- Folding Python dict assignments over a list of `(key, value)` pairs. -/
def foldInsert {α : Type} (init : List (String × α)) (l : List (String × α)) :
    List (String × α) :=
  l.foldl (fun m p => insertAssoc m p.1 p.2) init

theorem foldInsert_append {α : Type} (init l1 l2 : List (String × α)) :
    foldInsert init (l1 ++ l2) = foldInsert (foldInsert init l1) l2 :=
  List.foldl_append _ _ _ _

theorem lookup_foldInsert {α : Type} :
    ∀ (l : List (String × α)) (init : List (String × α)) (k : String),
      lookupAssoc (foldInsert init l) k =
        match lastVal? l k with
        | some v => some v
        | none => lookupAssoc init k := by
  intro l
  induction l with
  | nil => intro init k; rfl
  | cons p rest ih =>
    intro init k
    show lookupAssoc (foldInsert (insertAssoc init p.1 p.2) rest) k = _
    rw [ih]
    show _ = (match (match lastVal? rest k with
        | some v => some v
        | none => if p.1 == k then some p.2 else none) with
      | some v => some v
      | none => lookupAssoc init k)
    cases hlast : lastVal? rest k with
    | some v => rfl
    | none =>
      by_cases hp : (p.1 == k) = true
      · have hpk : p.1 = k := by simpa using hp
        simp only [if_pos hp]
        subst hpk
        exact lookup_insertAssoc_self p.1 p.2 init
      · simp only [if_neg hp]
        refine lookup_insertAssoc_other p.1 k p.2 ?_ init
        intro hx
        exact hp (by simp [hx])

theorem nodup_keys_insertAssoc {α : Type} (m : List (String × α)) (k : String) (v : α)
    (h : (m.map Prod.fst).Nodup) : ((insertAssoc m k v).map Prod.fst).Nodup := by
  unfold insertAssoc
  by_cases hany : (m.any (fun p => p.1 == k)) = true
  · rw [if_pos hany]
    have hkeys : (m.map (fun p => if p.1 == k then (k, v) else p)).map Prod.fst
        = m.map Prod.fst := by
      rw [List.map_map]
      refine List.map_congr_left ?_
      intro p _
      by_cases hp : (p.1 == k) = true
      · have : p.1 = k := by simpa using hp
        simp [Function.comp, hp, this]
      · simp [Function.comp, hp]
    rw [hkeys]
    exact h
  · rw [if_neg hany]
    rw [List.map_append]
    rw [List.nodup_append]
    refine ⟨h, List.nodup_singleton k, ?_⟩
    intro a ha hb
    have hak : a = k := by simpa using hb
    subst hak
    rcases List.mem_map.mp ha with ⟨p, hpm, hpk⟩
    exact hany (List.any_eq_true.mpr ⟨p, hpm, by simp [hpk]⟩)

theorem nodup_keys_foldInsert {α : Type} :
    ∀ (l : List (String × α)) (init : List (String × α)),
      (init.map Prod.fst).Nodup → ((foldInsert init l).map Prod.fst).Nodup := by
  intro l
  induction l with
  | nil => intro init h; exact h
  | cons p rest ih =>
    intro init h
    exact ih (insertAssoc init p.1 p.2) (nodup_keys_insertAssoc init p.1 p.2 h)

theorem mem_insertAssoc {α : Type} (pr : String × α) (m : List (String × α)) (k : String)
    (v : α) (h : pr ∈ insertAssoc m k v) : pr ∈ m ∨ pr = (k, v) := by
  unfold insertAssoc at h
  by_cases hany : (m.any (fun p => p.1 == k)) = true
  · rw [if_pos hany] at h
    rcases List.mem_map.mp h with ⟨q, hqm, hq⟩
    by_cases hqk : (q.1 == k) = true
    · rw [if_pos hqk] at hq
      exact Or.inr hq.symm
    · rw [if_neg hqk] at hq
      exact Or.inl (hq ▸ hqm)
  · rw [if_neg hany] at h
    rcases List.mem_append.mp h with hl | hr
    · exact Or.inl hl
    · exact Or.inr (by simpa using hr)

theorem mem_foldInsert {α : Type} :
    ∀ (l : List (String × α)) (init : List (String × α)) (pr : String × α),
      pr ∈ foldInsert init l → pr ∈ init ∨ pr ∈ l := by
  intro l
  induction l with
  | nil => intro init pr h; exact Or.inl h
  | cons p rest ih =>
    intro init pr h
    rcases ih (insertAssoc init p.1 p.2) pr h with hi | hr
    · rcases mem_insertAssoc pr init p.1 p.2 hi with hm | he
      · exact Or.inl hm
      · exact Or.inr (by rw [he]; exact List.mem_cons_self _ _)
    · exact Or.inr (List.mem_cons_of_mem p hr)

theorem lookup_mem_keys {α : Type} :
    ∀ (m : List (String × α)) (k : String) (v : α),
      lookupAssoc m k = some v → k ∈ m.map Prod.fst := by
  intro m
  induction m with
  | nil => intro k v h; exact absurd h (by simp [lookupAssoc])
  | cons p rest ih =>
    intro k v h
    by_cases hp : (p.1 == k) = true
    · have : p.1 = k := by simpa using hp
      rw [List.map_cons, this]
      exact List.mem_cons_self _ _
    · rw [lookupAssoc, if_neg hp] at h
      exact List.mem_cons_of_mem _ (ih k v h)

theorem lastVal?_mem {α : Type} :
    ∀ (l : List (String × α)) (pr : String × α), pr ∈ l → ∃ v, lastVal? l pr.1 = some v := by
  intro l
  induction l with
  | nil => intro pr h; exact absurd h (List.not_mem_nil pr)
  | cons q rest ih =>
    intro pr h
    rcases List.mem_cons.mp h with rfl | hm
    · cases hlast : lastVal? rest pr.1 with
      | some v => exact ⟨v, by simp [lastVal?, hlast]⟩
      | none => exact ⟨pr.2, by simp [lastVal?, hlast]⟩
    · rcases ih pr hm with ⟨v, hv⟩
      exact ⟨v, by simp [lastVal?, hv]⟩

theorem buildOpenapiPaths_eq (root : String) :
    ∀ (fns : List AstData) (init : List (String × PostOperation)),
      fns.foldl (fun paths ad =>
        ad.whitelisted_methods.foldl (fun paths2 wl =>
          insertAssoc paths2 (pathOf root ad.file wl.name) (opOf wl)) paths) init
      = foldInsert init (endpointPairs root fns) := by
  intro fns
  induction fns with
  | nil => intro init; rfl
  | cons ad rest ih =>
    intro init
    have hinner : ∀ (wls : List Endpoint) (init2 : List (String × PostOperation)),
        wls.foldl (fun paths2 wl =>
          insertAssoc paths2 (pathOf root ad.file wl.name) (opOf wl)) init2
        = foldInsert init2 (wls.map (fun wl => (pathOf root ad.file wl.name, opOf wl))) := by
      intro wls
      induction wls with
      | nil => intro init2; rfl
      | cons wl wrest wih =>
        intro init2
        show wrest.foldl _ (insertAssoc init2 (pathOf root ad.file wl.name) (opOf wl)) = _
        rw [wih]
        rfl
    show rest.foldl _ (ad.whitelisted_methods.foldl _ init) = _
    rw [ih, hinner]
    have hpairs : endpointPairs root (ad :: rest)
        = ad.whitelisted_methods.map (fun wl => (pathOf root ad.file wl.name, opOf wl))
          ++ endpointPairs root rest := by
      simp [endpointPairs]
    rw [hpairs, foldInsert_append]

/-! ## Lemmas about the pipeline folds -/

theorem pipeline_foldl :
    ∀ (files : List SrcFile) (init : List AstData),
      files.foldl scanStep init = init ++ newRecords files := by
  intro files
  induction files with
  | nil => intro init; simp [newRecords]
  | cons f fs ih =>
    intro init
    show fs.foldl scanStep (scanStep init f) = _
    rw [ih]
    unfold scanStep newRecords
    by_cases hc : candidate f = true
    · rw [if_pos hc]
      rw [List.filterMap_cons, if_pos hc]
      cases hp : (parse_file f).1 with
      | some ad => simp [newRecords]
      | none => simp [newRecords]
    · rw [if_neg hc]
      rw [List.filterMap_cons, if_neg hc]

theorem console_step_out (init : List String) (f : SrcFile) :
    consoleStep init f = init ++ consoleStep [] f := by
  unfold consoleStep
  by_cases hc : candidate f = true
  · rw [if_pos hc, if_pos hc]
    rfl
  · rw [if_neg hc, if_neg hc]
    simp

theorem console_foldl :
    ∀ (files : List SrcFile) (init : List String),
      files.foldl consoleStep init = init ++ pipelineConsole files := by
  intro files
  induction files with
  | nil => intro init; simp [pipelineConsole]
  | cons f fs ih =>
    intro init
    show fs.foldl consoleStep (consoleStep init f) = _
    rw [ih]
    have : pipelineConsole (f :: fs) = consoleStep [] f ++ pipelineConsole fs := by
      show fs.foldl consoleStep (consoleStep [] f) = _
      rw [ih]
    rw [this, console_step_out init f, List.append_assoc]

/-! ## Claim C1 -/

/-- C1 (counterexample): the claim says a function whose decorator list
contains a recognized decorator yields exactly one record.  `doubleDecFn`
carries two recognized decorators (`@whitelist` and `@frappe.whitelist()`)
and the extractor appends one record per matching decorator, producing two
records, not one. -/
theorem c1_counterexample :
    (∃ dec ∈ doubleDecFn.decorator_list, isWhitelistDecorator dec = true)
    ∧ (processFunctionDef doubleDecFn).length = 2
    ∧ (processFunctionDef doubleDecFn).length ≠ 1 := by
  refine ⟨⟨Expr.name "whitelist", List.mem_cons_self _ _, by decide⟩, rfl, by decide⟩

/-- C1 (amended): the extractor produces exactly one EndpointRecord per
matching decorator — the number of records of a function equals the number
of its decorators that pass the recognized-form test (so a function with a
single matching decorator yields exactly one record, and one with several
matching decorators yields several) — and a function with no matching
decorator produces none. -/
theorem c1_one_record_per_matching_decorator :
    ∀ f : FunctionDef,
      (processFunctionDef f).length = (f.decorator_list.filter isWhitelistDecorator).length
      ∧ (processFunctionDef f = [] ↔
          ∀ dec ∈ f.decorator_list, isWhitelistDecorator dec = false) := by
  intro f
  rw [processFunctionDef_eq]
  refine ⟨List.length_map _ _, ?_⟩
  rw [List.map_eq_nil_iff, List.filter_eq_nil_iff]
  constructor
  · intro h dec hdec
    exact Bool.eq_false_iff.mpr (h dec hdec)
  · intro h dec hdec
    simp [h dec hdec]

/-- C1 (witness): the amended rule applied to `statusFn`, which carries
exactly one matching decorator and yields exactly one record. -/
theorem c1_witness :
    (processFunctionDef statusFn).length
        = (statusFn.decorator_list.filter isWhitelistDecorator).length
    ∧ (statusFn.decorator_list.filter isWhitelistDecorator).length = 1 :=
  ⟨(c1_one_record_per_matching_decorator statusFn).1, by decide⟩

/-! ## Claim C2 -/

/-- C2 (counterexample): the docstring `":return:\nFoo"` contains the
marker, and the text following the marker on its own line (up to the line
break) is empty; yet the extracted record's 200-response description is
`"Foo"`, taken from the following line, because the code strips leading
whitespace (including newlines) before cutting at the first line break. -/
theorem c2_counterexample :
    (processFunctionDef blankReturnFn).map (fun e => e.response.description) = ["Foo"]
    ∧ pyContainsL (":return:\nFoo").data (":return:").data = true
    ∧ sameLineAfterMarker ":return:\nFoo" = ""
    ∧ ("Foo" : String) ≠ "" := by
  refine ⟨by decide, by decide, by decide, by decide⟩

/-- C2 (amended): when the lower-cased docstring lacks `':return:'` the
description is the fixed text `"JSON response"`; when the docstring
decomposes as `pre ++ ":return:" ++ suf` with the marker occurring nowhere
before that position and nowhere in `suf`, the description is the first
line of `suf` after stripping surrounding whitespace — which is the rest
of the marker's line when that rest is non-blank, but comes from a later
line when it is blank.  Every extracted record's description is computed
this way from its docstring. -/
theorem c2_response_description_amended :
    (∀ doc : List Char, pyContainsL (pyLowerL doc) (":return:").data = false →
      responseDescriptionL doc = ("JSON response").data)
    ∧ (∀ pre suf : List Char,
        (∀ i, i < pre.length →
          (":return:").data.isPrefixOf ((pre ++ (":return:").data ++ suf).drop i) = false) →
        pyContainsL suf (":return:").data = false →
        responseDescriptionL (pre ++ (":return:").data ++ suf)
          = (pyStripL suf).takeWhile (fun c => c != '\n'))
    ∧ (∀ (f : FunctionDef) (dec : Expr),
        (mkEndpoint f dec).response.description = responseDescription (f.docstring.getD "")) := by
  refine ⟨?_, ?_, fun f dec => rfl⟩
  · intro doc h
    unfold responseDescriptionL
    rw [if_neg (by simp [h])]
  · intro pre suf hocc hsuf
    have hlowRET : List.map Char.toLower ((":return:").data) = (":return:").data := by decide
    have hcont : pyContainsL (pyLowerL (pre ++ (":return:").data ++ suf)) (":return:").data
        = true := by
      unfold pyLowerL
      rw [List.map_append, List.map_append, hlowRET]
      exact pyContainsL_decomp _ _ _
    unfold responseDescriptionL
    rw [if_pos hcont]
    rw [pySplit_append (":return:").data (by decide) pre suf hocc]
    rw [pySplit_no_occurrence (":return:").data suf hsuf]
    rw [show pyLastD (pre :: [suf]) = suf from rfl]
    exact pySplit_head_single '\n' (pyStripL suf)

/-- C2 (witness): the amended description rule applied to the docstring
`"Adds.\n    :return: the sum\n    extra"` yields `"the sum"`. -/
theorem c2_witness :
    responseDescriptionL (("Adds.\n    ").data ++ (":return:").data ++ (" the sum\n    extra").data)
        = (pyStripL ((" the sum\n    extra").data)).takeWhile (fun c => c != '\n')
    ∧ String.mk ((pyStripL ((" the sum\n    extra").data)).takeWhile (fun c => c != '\n'))
        = "the sum" := by
  refine ⟨c2_response_description_amended.2.1 (("Adds.\n    ").data)
    ((" the sum\n    extra").data) (by decide) (by decide), by decide⟩

/-! ## Claim C3 -/

/-- C3: parameter type inference — no annotation gives `"string"`; a
simple name annotation gives its name lower-cased; a subscripted
annotation gives `"array"` exactly when the subscripted base is the name
`list` and `"string"` for any other subscripted base; extracted records
carry exactly the parameters of `extractParams`, and every non-`self`
positional parameter appears there with its inferred type. -/
theorem c3_parameter_type_inference :
    paramTypeOf none = "string"
    ∧ (∀ id, paramTypeOf (some (Expr.name id)) = pyLowerS id)
    ∧ (∀ sl, paramTypeOf (some (Expr.subscript (Expr.name "list") sl)) = "array")
    ∧ (∀ v sl, v ≠ Expr.name "list" → paramTypeOf (some (Expr.subscript v sl)) = "string")
    ∧ (∀ (f : FunctionDef) (e : Endpoint), e ∈ processFunctionDef f →
        e.parameters = extractParams f.args)
    ∧ (∀ (args : List Arg) (a : Arg), a ∈ args → a.arg ≠ "self" →
        ({ name := a.arg, type := paramTypeOf a.annotation } : Param) ∈ extractParams args) := by
  refine ⟨rfl, fun id => rfl, fun sl => by simp [paramTypeOf], ?_, ?_, ?_⟩
  · intro v sl hv
    cases v <;> try rfl
    next i =>
      have hne : i ≠ "list" := fun hh => hv (by rw [hh])
      show (if i == "list" then "array" else "string") = "string"
      rw [if_neg (by simpa using hne)]
  · intro f e he
    rw [processFunctionDef_eq] at he
    rcases List.mem_map.mp he with ⟨dec, -, rfl⟩
    rfl
  · intro args a ha hne
    unfold extractParams
    refine List.mem_filterMap.mpr ⟨a, ha, ?_⟩
    rw [if_pos (by simpa using hne)]

/-- C3 (witness): the rules evaluated on `guestFn`, whose parameters are
`a` (no annotation), `self`, `n : Integer`, `xs : list[str]` and
`ys : typing.List[...]`. -/
theorem c3_witness :
    (mkEndpoint guestFn guestDec).parameters = extractParams guestFn.args
    ∧ paramTypeOf (some (Expr.name "Integer")) = pyLowerS "Integer"
    ∧ pyLowerS "Integer" = "integer"
    ∧ paramTypeOf (some (Expr.subscript (Expr.attribute (Expr.name "typing") "List") Expr.other))
        = "string"
    ∧ ({ name := "n", type := paramTypeOf (some (Expr.name "Integer")) } : Param)
        ∈ extractParams guestFn.args := by
  refine ⟨c3_parameter_type_inference.2.2.2.2.1 guestFn _ (by decide),
    c3_parameter_type_inference.2.1 "Integer", by decide,
    c3_parameter_type_inference.2.2.2.1 _ Expr.other (fun h => nomatch h),
    c3_parameter_type_inference.2.2.2.2.2 guestFn.args
      { arg := "n", annotation := some (Expr.name "Integer") }
      (List.mem_cons_of_mem _ (List.mem_cons_of_mem _ (List.mem_cons_self _ _)))
      (by decide)⟩

/-! ## Claim C4 -/

/-- C4: a record's `allow_guest` flag is true exactly when its decorator
is a call expression carrying a keyword argument named `allow_guest` whose
value is the literal constant `True`; the keyword's absence, any other
value, or the bare-name decorator form all yield false.  Each matching
decorator of a function contributes its record to the extractor output. -/
theorem c4_allow_guest_flag :
    ∀ (f : FunctionDef) (dec : Expr),
      (dec ∈ f.decorator_list → isWhitelistDecorator dec = true →
        mkEndpoint f dec ∈ processFunctionDef f)
      ∧ ((mkEndpoint f dec).allow_guest = true ↔
          ∃ fn args kws, dec = Expr.call fn args kws
            ∧ (some "allow_guest", Expr.constant (Const.boolConst true)) ∈ kws) := by
  intro f dec
  constructor
  · intro hmem hwl
    unfold processFunctionDef
    exact List.mem_filterMap.mpr ⟨dec, hmem, by rw [if_pos hwl]⟩
  · show allowGuestOf dec = true ↔ _
    rcases dec with i | ⟨v, a⟩ | ⟨fn, args, kws⟩ | c | ⟨v, s⟩ | _
    · simp [allowGuestOf]
    · simp [allowGuestOf]
    · simp only [allowGuestOf]
      rw [List.any_eq_true]
      constructor
      · rintro ⟨⟨k1, k2⟩, hkw, hp⟩
        rw [Bool.and_eq_true] at hp
        have h1 : k1 = some "allow_guest" := by simpa using hp.1
        have h2 : k2 = Expr.constant (Const.boolConst true) := (isTrueConst_eq_true k2).mp hp.2
        subst h1
        subst h2
        exact ⟨fn, args, kws, rfl, hkw⟩
      · rintro ⟨fn', args', kws', heq, hmem⟩
        injection heq with e1 e2 e3
        subst e3
        exact ⟨(some "allow_guest", Expr.constant (Const.boolConst true)), hmem, by decide⟩
    · simp [allowGuestOf]
    · simp [allowGuestOf]
    · simp [allowGuestOf]

/-- C4 (witness): `@frappe.whitelist(allow_guest=True)` yields a record
with `allow_guest = true`, present in the extractor output. -/
theorem c4_witness :
    mkEndpoint guestFn guestDec ∈ processFunctionDef guestFn
    ∧ (mkEndpoint guestFn guestDec).allow_guest = true := by
  constructor
  · exact (c4_allow_guest_flag guestFn guestDec).1 (List.mem_cons_self _ _) (by decide)
  · exact ((c4_allow_guest_flag guestFn guestDec).2).mpr
      ⟨Expr.attribute (Expr.name "frappe") "whitelist", [], _, rfl, List.mem_cons_self _ _⟩

/-! ## Claim C5 -/

/-- C5: `get_status` in `apps/myapp/api/status.py` scanned with root
`./apps` yields the path `/api/method/api.status.get_status`, whose POST
operation has `x-allow-guest: false` and a basic-auth security
requirement; and in general every path of the generated document is
`/api/method/` ++ module path ++ `.` ++ function name for some record. -/
theorem c5_endpoint_path :
    (build_openapi root_dir (pipelineData (StoreContent.list []) [statusFile])).paths
        = [("/api/method/api.status.get_status", opOf (mkEndpoint statusFn frappeDec))]
    ∧ (opOf (mkEndpoint statusFn frappeDec)).xAllowGuest = false
    ∧ (opOf (mkEndpoint statusFn frappeDec)).security = some ["basicAuth"]
    ∧ get_module_path root_dir "apps/myapp/api/status.py" = "api.status"
    ∧ (∀ (root : String) (fns : List AstData) (p : String) (op : PostOperation),
        (p, op) ∈ (build_openapi root fns).paths →
        ∃ ad ∈ fns, ∃ wl ∈ ad.whitelisted_methods,
          p = "/api/method/" ++ get_module_path root ad.file ++ "." ++ wl.name
          ∧ op = opOf wl) := by
  refine ⟨by decide, by decide, by decide, by decide, ?_⟩
  intro root fns p op hmem
  have h1 : (p, op) ∈ foldInsert [] (endpointPairs root fns) := by
    rw [← buildOpenapiPaths_eq root fns []]
    exact hmem
  rcases mem_foldInsert _ _ _ h1 with hnil | hpairs
  · exact absurd hnil (List.not_mem_nil _)
  · unfold endpointPairs at hpairs
    rcases List.mem_flatten.mp hpairs with ⟨inner, hinner, hpin⟩
    rcases List.mem_map.mp hinner with ⟨ad, had, rfl⟩
    rcases List.mem_map.mp hpin with ⟨wl, hwl, heq⟩
    injection heq with hpe hoe
    exact ⟨ad, had, wl, hwl, hpe.symm, hoe.symm⟩

/-- C5 (witness): the general path-shape rule applied to the `get_status`
document. -/
theorem c5_witness :
    ∃ ad ∈ pipelineData (StoreContent.list []) [statusFile],
      ∃ wl ∈ ad.whitelisted_methods,
        "/api/method/api.status.get_status"
            = "/api/method/" ++ get_module_path root_dir ad.file ++ "." ++ wl.name
        ∧ opOf (mkEndpoint statusFn frappeDec) = opOf wl :=
  c5_endpoint_path.2.2.2.2 root_dir (pipelineData (StoreContent.list []) [statusFile])
    "/api/method/api.status.get_status" (opOf (mkEndpoint statusFn frappeDec)) (by decide)

/-! ## Claim C6 -/

/-- C6: the paths mapping of the generated document has pairwise-distinct
keys, every record's path occurs among the keys, and the operation stored
under each key is the one of the last record processed with that key
(last-write-wins). -/
theorem c6_unique_paths_last_write_wins :
    ∀ (root : String) (fns : List AstData),
      ((build_openapi root fns).paths.map Prod.fst).Nodup
      ∧ (∀ k, lookupAssoc (build_openapi root fns).paths k
          = lastVal? (endpointPairs root fns) k)
      ∧ (∀ pr ∈ endpointPairs root fns,
          pr.1 ∈ (build_openapi root fns).paths.map Prod.fst) := by
  intro root fns
  have hb : (build_openapi root fns).paths = foldInsert [] (endpointPairs root fns) :=
    buildOpenapiPaths_eq root fns []
  refine ⟨?_, ?_, ?_⟩
  · rw [hb]
    exact nodup_keys_foldInsert _ [] (by simp)
  · intro k
    rw [hb, lookup_foldInsert]
    cases lastVal? (endpointPairs root fns) k <;> rfl
  · intro pr hpr
    rcases lastVal?_mem _ pr hpr with ⟨v, hv⟩
    have hl : lookupAssoc (build_openapi root fns).paths pr.1 = some v := by
      rw [hb, lookup_foldInsert, hv]
    exact lookup_mem_keys _ _ _ hl

/-- C6 (witness): two records from distinct files (`app1/api.py` and
`app2/api.py`) map to the same path `/api/method/api.f`; the document
keeps a single entry for it holding the later record's operation. -/
theorem c6_witness :
    lookupAssoc (build_openapi root_dir [collideAd1, collideAd2]).paths "/api/method/api.f"
        = lastVal? (endpointPairs root_dir [collideAd1, collideAd2]) "/api/method/api.f"
    ∧ lastVal? (endpointPairs root_dir [collideAd1, collideAd2]) "/api/method/api.f"
        = some (opOf collideB)
    ∧ (build_openapi root_dir [collideAd1, collideAd2]).paths.map Prod.fst
        = ["/api/method/api.f"] := by
  refine ⟨(c6_unique_paths_last_write_wins root_dir [collideAd1, collideAd2]).2.1 _,
    by decide, by decide⟩

/-! ## Claim C7 -/

/-- C7: with a well-formed prior array in the store, a run keeps every
prior record in place and appends this run's records after them; a second
identical run appends the same records again (no deduplication), so the
store grows monotonically across runs. -/
theorem c7_store_appends :
    ∀ (prior : List AstData) (files : List SrcFile),
      pipelineData (StoreContent.list prior) files = prior ++ newRecords files
      ∧ pipelineData (StoreContent.list (pipelineData (StoreContent.list prior) files)) files
          = prior ++ newRecords files ++ newRecords files := by
  intro prior files
  have h1 : pipelineData (StoreContent.list prior) files = prior ++ newRecords files :=
    pipeline_foldl files prior
  refine ⟨h1, ?_⟩
  calc pipelineData (StoreContent.list (pipelineData (StoreContent.list prior) files)) files
      = pipelineData (StoreContent.list prior) files ++ newRecords files :=
        pipeline_foldl files _
    _ = prior ++ newRecords files ++ newRecords files := by rw [h1]

/-! ## Claim C8 -/

/-- C8: a candidate file that fails to decode or parse contributes no
record, prints `Skipping <path>: Unable to parse`, leaves the store and
the OpenAPI paths exactly as if the file were absent, and does not disturb
the processing of the surrounding files. -/
theorem c8_unparseable_file_skipped :
    ∀ (prior : StoreContent) (pre post : List SrcFile) (f : SrcFile),
      f.content = FileContent.invalid → candidate f = true →
      (parse_file f).1 = none
      ∧ (parse_file f).2 = ["Skipping " ++ filePathOf f ++ ": Unable to parse"]
      ∧ pipelineData prior (pre ++ f :: post) = pipelineData prior (pre ++ post)
      ∧ buildOpenapiPaths root_dir (pipelineData prior (pre ++ f :: post))
          = buildOpenapiPaths root_dir (pipelineData prior (pre ++ post))
      ∧ pipelineConsole (pre ++ f :: post)
          = pipelineConsole pre ++ ["Skipping " ++ filePathOf f ++ ": Unable to parse"]
            ++ pipelineConsole post := by
  intro prior pre post f hinv hc
  have hp : parse_file f = (none, ["Skipping " ++ filePathOf f ++ ": Unable to parse"]) := by
    unfold parse_file
    rw [hinv]
  have hscan : ∀ X, scanStep X f = X := by
    intro X
    unfold scanStep
    rw [if_pos hc, hp]
  have hdata : pipelineData prior (pre ++ f :: post) = pipelineData prior (pre ++ post) := by
    unfold pipelineData
    rw [List.foldl_append, List.foldl_append, List.foldl_cons, hscan]
  refine ⟨by rw [hp], by rw [hp], hdata, by rw [hdata], ?_⟩
  show (pre ++ f :: post).foldl consoleStep [] = _
  rw [List.foldl_append, List.foldl_cons]
  have hcf : consoleStep (List.foldl consoleStep [] pre) f
      = List.foldl consoleStep [] pre ++ ["Skipping " ++ filePathOf f ++ ": Unable to parse"] := by
    unfold consoleStep
    rw [if_pos hc, hp]
  rw [hcf, console_foldl post]
  rfl

/-- C8 (witness): the skip behavior on the concrete broken file
`./apps/app1/broken.py` placed after a healthy file. -/
theorem c8_witness :
    pipelineData (StoreContent.list []) [statusFile, brokenFile]
        = pipelineData (StoreContent.list []) [statusFile]
    ∧ (parse_file brokenFile).1 = none
    ∧ (parse_file brokenFile).2 = ["Skipping ./apps/app1/broken.py: Unable to parse"] := by
  have h := c8_unparseable_file_skipped (StoreContent.list []) [statusFile] [] brokenFile rfl
    (by decide)
  exact ⟨h.2.2.1, h.1, by decide⟩

/-! ## Claim C9 -/

/-- C9: a parameter named `self` is omitted from the extracted parameter
list wherever it occurs in the positional signature, and every other
positional parameter appears, in order. -/
theorem c9_self_excluded_any_position :
    ∀ (f : FunctionDef) (e : Endpoint), e ∈ processFunctionDef f →
      e.parameters.map Param.name = (f.args.map Arg.arg).filter (fun s => s != "self") := by
  intro f e he
  rw [processFunctionDef_eq] at he
  rcases List.mem_map.mp he with ⟨dec, -, rfl⟩
  show (extractParams f.args).map Param.name = _
  exact extractParams_names f.args

/-- C9 (witness): `guestFn` has `self` in second position; the extracted
names keep every other parameter in order. -/
theorem c9_witness :
    (mkEndpoint guestFn guestDec).parameters.map Param.name
        = (guestFn.args.map Arg.arg).filter (fun s => s != "self")
    ∧ (guestFn.args.map Arg.arg).filter (fun s => s != "self") = ["a", "n", "xs", "ys"] := by
  exact ⟨c9_self_excluded_any_position guestFn _ (by decide), by decide⟩

/-! ## Claim C10 -/

/-- C10: a prior store that is well-formed JSON but not an array is
discarded: the run starts from the empty store, exactly as when the store
file is missing or fails to parse as JSON. -/
theorem c10_nonlist_store_reset :
    loadStore StoreContent.nonList = []
    ∧ loadStore StoreContent.missing = []
    ∧ loadStore StoreContent.malformed = []
    ∧ ∀ files, pipelineData StoreContent.nonList files = pipelineData StoreContent.missing files
        ∧ pipelineData StoreContent.nonList files = pipelineData StoreContent.malformed files :=
  ⟨rfl, rfl, rfl, fun _ => ⟨rfl, rfl⟩⟩

end FrappeAst
